import Mathlib

/-!
Shallow embedding of the two scripts of TeamAudio/xy-pad:
`scripts/reapack_publish.py` and `scripts/release.py`.

Text is modelled as `List Char` (Python `str`), documents carry their
newlines; Python line splitting, whitespace handling, substring search and
replacement are embedded as executable functions below, each mirroring the
exact operation the source performs.
-/

/-- Convert a string literal to the `List Char` representation used throughout. -/
def str (s : String) : List Char := s.data

/-- Python `\s` character class (`str.strip` / regex `\s`): space, tab,
newline, carriage return, vertical tab, form feed. -/
def isWs (c : Char) : Bool :=
  c = ' ' || c = '\t' || c = '\n' || c = '\r' || c = '\x0b' || c = '\x0c'

/-- Python `str.lstrip()` (whitespace). -/
def lstripWs (l : List Char) : List Char := l.dropWhile isWs

/-- Python `str.rstrip()` (whitespace). -/
def rstripWs (l : List Char) : List Char := (l.reverse.dropWhile isWs).reverse

/-- Python `str.strip()` (whitespace both ends). -/
def stripWs (l : List Char) : List Char := rstripWs (lstripWs l)

/-- Python `str.rstrip("\n")`: strip trailing newline characters only. -/
def rstripNl (l : List Char) : List Char := (l.reverse.dropWhile (· = '\n')).reverse

/-- Python `pat in s` substring test. -/
def occursIn (pat : List Char) : List Char → Bool
  | [] => pat.isEmpty
  | c :: rest => pat.isPrefixOf (c :: rest) || occursIn pat rest

/-- Python `s.replace(pat, rep, 1)`: replace the first occurrence only
(for non-empty `pat`; absent pattern leaves the text unchanged). -/
def replaceFirst (pat rep : List Char) : List Char → List Char
  | [] => []
  | c :: rest =>
    if pat.isPrefixOf (c :: rest) then rep ++ (c :: rest).drop pat.length
    else c :: replaceFirst pat rep rest

/-- Python `s.replace(pat, rep)` for non-empty `pat`: replace every
(non-overlapping, leftmost) occurrence. Fuel-based structural recursion
(`l.length` steps always suffice, since each step consumes at least one
character of the remaining text). -/
def replaceAllAux (pat rep : List Char) : Nat → List Char → List Char
  | 0, l => l
  | _ + 1, [] => []
  | fuel + 1, c :: rest =>
    if pat.isPrefixOf (c :: rest) && !pat.isEmpty then
      rep ++ replaceAllAux pat rep fuel ((c :: rest).drop pat.length)
    else c :: replaceAllAux pat rep fuel rest

def replaceAll (pat rep l : List Char) : List Char := replaceAllAux pat rep l.length l

/-- Python `text.split(sep)` for a single-character separator: always returns
at least one piece; empty pieces are kept. -/
def splitOnChar (sep : Char) : List Char → List (List Char)
  | [] => [[]]
  | c :: rest =>
    let r := splitOnChar sep rest
    if c = sep then [] :: r
    else
      match r with
      | [] => [[c]]
      | h :: t => (c :: h) :: t

/-- Inverse of `splitOnChar`: join pieces with the separator. -/
def joinChar (sep : Char) : List (List Char) → List Char
  | [] => []
  | [l] => l
  | l :: ls => l ++ sep :: joinChar sep ls

/-- Python `str.split()` (no argument): whitespace-run splitting, no empty
tokens. Accumulator-based so that the recursion is structural. -/
def splitWsAux : List Char → List Char → List (List Char)
  | [], acc => if acc.isEmpty then [] else [acc.reverse]
  | c :: rest, acc =>
    if isWs c then
      if acc.isEmpty then splitWsAux rest []
      else acc.reverse :: splitWsAux rest []
    else splitWsAux rest (c :: acc)

def wsTokens (l : List Char) : List (List Char) := splitWsAux l []

instance {ε α : Type} [DecidableEq ε] [DecidableEq α] : DecidableEq (Except ε α) := fun x y =>
  match x, y with
  | .ok a, .ok b =>
    if h : a = b then isTrue (by rw [h]) else isFalse (by intro hc; cases hc; exact h rfl)
  | .error a, .error b =>
    if h : a = b then isTrue (by rw [h]) else isFalse (by intro hc; cases hc; exact h rfl)
  | .ok _, .error _ => isFalse (by intro hc; cases hc)
  | .error _, .ok _ => isFalse (by intro hc; cases hc)

/-- `_read_text` normalization: `text.replace("\r\n", "\n")`. -/
def normCrlf (l : List Char) : List Char := replaceAll (str "\r\n") (str "\n") l

/- ----------------------------------------------------------------- -/
/- scripts/reapack_publish.py                                         -/
/- ----------------------------------------------------------------- -/

/-- Errors a `reapack_publish.py` run can raise in the modelled fragment:
`indexError` is Python's `IndexError` from `[0]` on an empty token list;
`missingSource` is the `ReaPackPublishError` for a missing provides file. -/
inductive PErr where
  | indexError : PErr
  | missingSource : List Char → PErr
  deriving DecidableEq

/-- `ProvidesEntry` dataclass. -/
structure ProvidesEntry where
  source : List Char
  target : List Char
  has_url : Bool
  deriving DecidableEq

/-- `PROVIDES_LINE_RE = ^\s*--\s*(?P<body>.*)$`: matches iff the line starts,
after optional whitespace, with `--`; the `body` group is everything after
`--` with its leading whitespace removed (greedy `\s*`). -/
def matchCommentBody (raw : List Char) : Option (List Char) :=
  let t := lstripWs raw
  if (str "--").isPrefixOf t then some (lstripWs (t.drop 2)) else none

/-- `DIRECTIVE_LINE_RE = ^\s*--\s*@`. -/
def isDirective (raw : List Char) : Bool :=
  match matchCommentBody raw with
  | some b => b.head? = some '@'
  | none => false

/-- `PROVIDES_START_RE = ^\s*--\s*@provides\b`: the word boundary after
`provides` requires the next character to be absent or a non-word character. -/
def isProvidesStart (raw : List Char) : Bool :=
  match matchCommentBody raw with
  | some b =>
    (str "@provides").isPrefixOf b &&
      (match (b.drop 9).head? with
       | none => true
       | some c => !(c.isAlphanum || c = '_'))
  | none => false

/-- The bracket-group stripping step of `_parse_provides`: if the body starts
with `[` and contains `]`, drop through the first `]` and strip; otherwise the
body is unchanged (`find` returned `-1`). -/
def dropThroughChar (c : Char) : List Char → Option (List Char)
  | [] => none
  | x :: xs => if x = c then some xs else dropThroughChar c xs

def bracketStrip (body : List Char) : List Char :=
  if body.head? = some '[' then
    match dropThroughChar ']' body with
    | some rest => stripWs rest
    | none => body
  else body

/-- `"http://" in body or "https://" in body` on the post-bracket-strip body. -/
def hasUrlIn (body : List Char) : Bool :=
  occursIn (str "http://") body || occursIn (str "https://") body

/-- `left.strip().split()[0]` as an `Option`: `none` is Python's `IndexError`. -/
def firstTok (l : List Char) : Option (List Char) := (wsTokens (stripWs l)).head?

/-- The candidate body of a provides-block line after comment matching,
stripping, and option-flag (bracket-group) stripping — the exact value the
source stores in `body` at the point `has_url` is computed (line 105). -/
def postOptionBody (raw : List Char) : Option (List Char) :=
  match matchCommentBody raw with
  | none => none
  | some b =>
    let b0 := stripWs b
    if b0.isEmpty then none else some (stripWs (bracketStrip b0))

/-- Processing of one in-block, non-directive line of `_parse_provides`
(lines 76-106): `ok none` means the line is skipped, `ok (some e)` appends
entry `e`, `error` is the `IndexError` from indexing an empty token list. -/
def lineEntry (raw : List Char) : Except PErr (Option ProvidesEntry) :=
  match postOptionBody raw with
  | none => Except.ok none
  | some body =>
    if body.contains '>' then
      let left := body.takeWhile (· ≠ '>')
      let right := (body.dropWhile (· ≠ '>')).drop 1
      match firstTok left, firstTok right with
      | some s, some t => Except.ok (some ⟨s, t, hasUrlIn body⟩)
      | _, _ => Except.error PErr.indexError
    else
      match firstTok body with
      | none => Except.ok none
      | some s => Except.ok (some ⟨s, s, hasUrlIn body⟩)

/-- The scanning loop of `_parse_provides` (lines 61-108). The `Bool`
argument is the `in_provides` flag; hitting a directive while inside the
block executes `break`, i.e. no further line is scanned. -/
def provLoop : List (List Char) → Bool → Except PErr (List ProvidesEntry)
  | [], _ => Except.ok []
  | raw :: rest, inP =>
    if isProvidesStart raw then provLoop rest true
    else if !inP then provLoop rest false
    else if isDirective raw then Except.ok []
    else
      match lineEntry raw with
      | Except.error e => Except.error e
      | Except.ok none => provLoop rest true
      | Except.ok (some e) => (provLoop rest true).map (e :: ·)

/-- `_parse_provides` on the full text of the reapack file (after the
`_read_text` CRLF normalization). -/
def parseProvides (text : List Char) : Except PErr (List ProvidesEntry) :=
  provLoop (splitOnChar '\n' (normCrlf text)) false

/-- `Path(entry.source).name`: the last non-empty `/`-separated component. -/
def pathName (p : List Char) : List Char :=
  ((splitOnChar '/' p).filter (fun c => !c.isEmpty)).getLast?.getD []

/-- The per-entry loop of `cmd_sync` (lines 134-155), abstracted over the set
of existing repository files (`srcs`). Returns the ordered list of copy
instructions `(source, dst_rel)` actually performed. -/
def syncEntries (entries : List ProvidesEntry) (srcs : List (List Char)) :
    Except PErr (List (List Char × List Char)) :=
  match entries with
  | [] => Except.ok []
  | e :: rest =>
    if e.source = str "." || e.target = str "." then syncEntries rest srcs
    else if e.has_url then syncEntries rest srcs
    else if !((str "XY_Pad/").isPrefixOf e.source) then syncEntries rest srcs
    else if !(srcs.contains e.source) then Except.error (PErr.missingSource e.source)
    else
      let dstRel :=
        if e.target.getLast? = some '/' then e.target ++ pathName e.source
        else e.target
      (syncEntries rest srcs).map ((e.source, dstRel) :: ·)

/-- Sanity check of the embedding against the provides-block example of the
repository's descriptor format: two entries, scanning stops at `@changelog`. -/
theorem parseProvides_block_example :
    parseProvides (str "-- @provides\n--   XY_Pad/foo.lua\n--   XY_Pad/bar.lua > Tools/bar.lua\n-- @changelog") =
      Except.ok [⟨str "XY_Pad/foo.lua", str "XY_Pad/foo.lua", false⟩,
                 ⟨str "XY_Pad/bar.lua", str "Tools/bar.lua", false⟩] := by
  decide

/- ----------------------------------------------------------------- -/
/- scripts/release.py                                                 -/
/- ----------------------------------------------------------------- -/

/-- Errors a `release.py` run can raise in the modelled fragment.
`fileNotFound` is Python's `FileNotFoundError` from `Path.read_text`; the
rest are the `ReleaseError` cases. -/
inductive RErr where
  | fileNotFound : RErr
  | invalidVersion : RErr
  | noPending : RErr
  | emptyNotes : RErr
  | missingChangelog : RErr
  deriving DecidableEq

/-- `SemVer` dataclass. -/
structure SemVer where
  major : Nat
  minor : Nat
  patch : Nat
  deriving DecidableEq

def digitCh : Nat → Char
  | 0 => '0' | 1 => '1' | 2 => '2' | 3 => '3' | 4 => '4'
  | 5 => '5' | 6 => '6' | 7 => '7' | 8 => '8' | _ => '9'

/-- Decimal digits of a natural number, as Python `str(int)` (fuel-based so
the recursion is structural; `n + 1` steps always suffice). -/
def natCharsAux : Nat → Nat → List Char
  | 0, _ => []
  | fuel + 1, n => if n < 10 then [digitCh n] else natCharsAux fuel (n / 10) ++ [digitCh (n % 10)]

def natChars (n : Nat) : List Char := natCharsAux (n + 1) n

/-- `SemVer.__str__`: `f"{major}.{minor}.{patch}"`. -/
def verChars (v : SemVer) : List Char :=
  natChars v.major ++ '.' :: (natChars v.minor ++ '.' :: natChars v.patch)

/-- The three bump levels. In the source these are the strings
`"patch"`, `"minor"`, `"major"`; `SemVer.bump` raises on any other string,
which the inductive makes unrepresentable. -/
inductive Bump where
  | patch : Bump
  | minor : Bump
  | major : Bump
  deriving DecidableEq

/-- `BUMP_PRIORITY = {"patch": 0, "minor": 1, "major": 2}`. -/
def prio : Bump → Nat
  | .patch => 0
  | .minor => 1
  | .major => 2

def bumpChars : Bump → List Char
  | .patch => str "patch"
  | .minor => str "minor"
  | .major => str "major"

/-- `SemVer.bump`. -/
def SemVer.bump (v : SemVer) : Bump → SemVer
  | .major => ⟨v.major + 1, 0, 0⟩
  | .minor => ⟨v.major, v.minor + 1, 0⟩
  | .patch => ⟨v.major, v.minor, v.patch + 1⟩

/-- One group of `SEMVER_RE`, `(0|[1-9]\d*)`: matched in full by a segment
that is non-empty, all digits, and is `"0"` or does not start with `0`. -/
def segOk (p : List Char) : Bool :=
  !p.isEmpty && p.all Char.isDigit && (p == ['0'] || !(p.head? == some '0'))

def natOfDigits (p : List Char) : Nat := p.foldl (fun a c => 10 * a + (c.toNat - 48)) 0

/-- `SEMVER_RE.match` with its three `int(...)` group extractions. Since a
`\d` group cannot contain the literal dots, the anchored regex matches a
string exactly when it splits at its dots into three full group matches. -/
def semMatch (s : List Char) : Option SemVer :=
  match splitOnChar '.' s with
  | [a, b, c] =>
    if segOk a && segOk b && segOk c then
      some ⟨natOfDigits a, natOfDigits b, natOfDigits c⟩
    else none
  | _ => none

/-- `value.lstrip("v")`: removes every leading `v` character. -/
def dropV (l : List Char) : List Char := l.dropWhile (· = 'v')

/-- `SemVer.parse`. -/
def SemVer.parse (s : List Char) : Except RErr SemVer :=
  match semMatch (dropV (stripWs s)) with
  | some v => Except.ok v
  | none => Except.error RErr.invalidVersion

/-- `_select_bump_level`: Python `max(levels, key=BUMP_PRIORITY.get)` on a
non-empty list keeps the first element of maximal priority. -/
def selectBump : List Bump → Except RErr Bump
  | [] => Except.error RErr.noPending
  | l :: rest => Except.ok (rest.foldl (fun a b => if prio a < prio b then b else a) l)

/-- Lexicographic (code-point) order on strings, as Python `str` comparison
(for paths of one directory, `sorted(...)` over `Path` reduces to this on
the file names). -/
def lexLe : List Char → List Char → Bool
  | [], _ => true
  | _ :: _, [] => false
  | a :: as, b :: bs => if a = b then lexLe as bs else decide (a < b)

def insertIntoSorted {α : Type} (le : α → α → Bool) (x : α) : List α → List α
  | [] => [x]
  | y :: ys => if le y x then y :: insertIntoSorted le x ys else x :: y :: ys

/-- A sort by the given comparison (insertion sort; extensionally equal to
Python `sorted` on lists with pairwise-distinct keys, the only use here). -/
def sortByLe {α : Type} (le : α → α → Bool) (l : List α) : List α :=
  l.foldr (insertIntoSorted le) []

/-- The suffix-to-level test of `_discover_pending` (checked in the source
order patch, minor, major, on the lowercased name). -/
def levelOfName (name : List Char) : Option Bump :=
  let low := name.map Char.toLower
  if (str ".patch.md").isSuffixOf low then some .patch
  else if (str ".minor.md").isSuffixOf low then some .minor
  else if (str ".major.md").isSuffixOf low then some .major
  else none

/-- `_discover_pending` on the list of file names of the pending directory:
glob `*.md`, sort, keep the suffix-tagged ones with their level. -/
def discoverPendingNames (names : List (List Char)) : List (Bump × List Char) :=
  (sortByLe lexLe (names.filter (fun n => (str ".md").isSuffixOf n))).filterMap
    (fun n => (levelOfName n).map (fun l => (l, n)))

/-- The filesystem model: an association list from paths (repo-relative,
`/`-separated) to file contents. -/
abbrev FS : Type := List (List Char × List Char)

/-- `_read_text`: read a file, normalize CRLF; missing file raises. -/
def readText (fs : FS) (path : List Char) : Except RErr (List Char) :=
  match fs.find? (fun kv => kv.1 == path) with
  | some kv => Except.ok (normCrlf kv.2)
  | none => Except.error RErr.fileNotFound

/-- `_write_text` (create or overwrite). -/
def setFile (fs : FS) (path content : List Char) : FS :=
  if fs.any (fun kv => kv.1 == path) then
    fs.map (fun kv => if kv.1 == path then (path, content) else kv)
  else fs ++ [(path, content)]

/-- `Path.unlink` with `FileNotFoundError` ignored. -/
def deleteFile (fs : FS) (path : List Char) : FS :=
  fs.filter (fun kv => !(kv.1 == path))

/-- `open(path, "a")` followed by writes: append, creating if missing. -/
def appendFile (fs : FS) (path content : List Char) : FS :=
  match fs.find? (fun kv => kv.1 == path) with
  | some kv => setFile fs path (kv.2 ++ content)
  | none => setFile fs path content

/-- The name of `path` when it is directly inside directory `dir`. -/
def fileNameInDir (dir path : List Char) : Option (List Char) :=
  if (dir ++ ['/']).isPrefixOf path then
    let name := path.drop (dir.length + 1)
    if name.contains '/' || name.isEmpty then none else some name
  else none

/-- `pending_dir.glob("*.md")`: names of the `.md` files directly in `dir`
(a missing directory simply yields no files). -/
def globMd (fs : FS) (dir : List Char) : List (List Char) :=
  fs.filterMap (fun kv =>
    match fileNameInDir dir kv.1 with
    | some n => if (str ".md").isSuffixOf n then some n else none
    | none => none)

def discoverPendingFS (fs : FS) (dir : List Char) : List (Bump × List Char) :=
  discoverPendingNames (globMd fs dir)

/-- The section-reading part of `_compile_release_notes`: read each pending
file, strip it, keep the non-empty bodies, in the given order. -/
def collectSections (fs : FS) (dir : List Char) :
    List (Bump × List Char) → Except RErr (List (List Char))
  | [] => Except.ok []
  | (_, name) :: rest =>
    match readText fs (dir ++ '/' :: name) with
    | Except.error e => Except.error e
    | Except.ok body =>
      match collectSections fs dir rest with
      | Except.error e => Except.error e
      | Except.ok secs =>
        Except.ok (if (stripWs body).isEmpty then secs else stripWs body :: secs)

def joinSep (sep : List Char) : List (List Char) → List Char
  | [] => []
  | [l] => l
  | l :: ls => l ++ sep ++ joinSep sep ls

/-- `_compile_release_notes`: sort by file name, join the stripped non-empty
bodies with `\n\n---\n\n`, right-strip, append one newline. -/
def compileNotes (fs : FS) (dir : List Char) (pending : List (Bump × List Char)) :
    Except RErr (List Char) :=
  match collectSections fs dir (sortByLe (fun x y => lexLe x.2 y.2) pending) with
  | Except.error e => Except.error e
  | Except.ok secs => Except.ok (rstripWs (joinSep (str "\n\n---\n\n") secs) ++ ['\n'])

/-- A line matched by `(?m)^--@version\s*$`: the literal tag followed by
whitespace only. -/
def isBareVersionLine (l : List Char) : Bool :=
  (str "--@version").isPrefixOf l && (l.drop 10).all isWs

def stampLine (v : SemVer) (l : List Char) : List Char :=
  if isBareVersionLine l then str "--@version " ++ verChars v else l

/-- `re.sub(r"(?m)^--@version\s*$", f"--@version {version}", template)`:
every bare `--@version` line is rewritten, all others kept. -/
def subVersion (t : List Char) (v : SemVer) : List Char :=
  joinChar '\n' ((splitOnChar '\n' t).map (stampLine v))

/-- The reformatted changelog block of `_stamp_reapack_file`: each line of
the right-newline-stripped notes becomes `--  <line>`, a blank line becomes
`--  `; joined by newlines with one trailing newline. -/
def clInsertion (notes : List Char) : List Char :=
  joinChar '\n'
    ((splitOnChar '\n' (rstripNl notes)).map
      (fun line => if (stripWs line).isEmpty then str "--  " else str "--  " ++ line)) ++ ['\n']

/-- The pure text transformation of `_stamp_reapack_file` (the surrounding
read and write are file I/O threaded through `cmd_prepare` below). -/
def stampText (template : List Char) (v : SemVer) (notes : List Char) :
    Except RErr (List Char) :=
  let out := subVersion template v
  if !(occursIn (str "--@changelog") out) then Except.error RErr.missingChangelog
  else
    Except.ok (replaceFirst (str "--@changelog\n")
      (str "--@changelog\n" ++ clInsertion notes) out)

/-- The `prepare` arguments that reach the modelled fragment (paths are
repo-relative; `github_output` empty models a falsy `--github-output`). -/
structure PrepArgs where
  dry_run : Bool
  github_output : List Char
  current_version_file : List Char
  pending_dir : List Char
  changes_out_dir : List Char
  reapack_template : List Char
  reapack_out : List Char
  deriving DecidableEq

/-- The triple `cmd_prepare` reports (`print` and GitHub-output lines). -/
structure PrepOut where
  bump_level : Bump
  version : SemVer
  changes_file : List Char
  deriving DecidableEq

def ghLines (o : PrepOut) : List Char :=
  str "bump_level=" ++ bumpChars o.bump_level ++
    '\n' :: (str "version=" ++ verChars o.version ++
      '\n' :: (str "changes_file=" ++ o.changes_file ++ ['\n']))

/-- The non-dry-run write sequence of `cmd_prepare` (lines 149-164): write
the version file, write the changes file, stamp the reapack file, delete the
pending fragments. -/
def nonDryWrites (a : PrepArgs) (fs : FS) (newV : SemVer) (notes changesFile : List Char)
    (pending : List (Bump × List Char)) : Except RErr FS :=
  let fs1 := setFile fs a.current_version_file (verChars newV ++ ['\n'])
  let fs2 := setFile fs1 changesFile notes
  match readText fs2 a.reapack_template with
  | Except.error e => Except.error e
  | Except.ok tpl =>
    match stampText tpl newV notes with
    | Except.error e => Except.error e
    | Except.ok outc =>
      let fs3 := setFile fs2 a.reapack_out outc
      Except.ok (pending.foldl (fun acc p => deleteFile acc (a.pending_dir ++ '/' :: p.2)) fs3)

/-- `cmd_prepare` as a state transformer on the filesystem model, returning
the new filesystem and the reported `(bump_level, version, changes_file)`. -/
def cmd_prepare (a : PrepArgs) (fs : FS) : Except RErr (FS × PrepOut) :=
  match readText fs a.current_version_file with
  | Except.error e => Except.error e
  | Except.ok raw =>
    match SemVer.parse (stripWs raw) with
    | Except.error e => Except.error e
    | Except.ok cur =>
      let pending := discoverPendingFS fs a.pending_dir
      match selectBump (pending.map (·.1)) with
      | Except.error e => Except.error e
      | Except.ok lvl =>
        let newV := cur.bump lvl
        match compileNotes fs a.pending_dir pending with
        | Except.error e => Except.error e
        | Except.ok notes =>
          if (stripWs notes).isEmpty then Except.error RErr.emptyNotes
          else
            let changesFile := a.changes_out_dir ++ '/' :: (str "changes-" ++ verChars newV ++ str ".md")
            match (if a.dry_run then Except.ok fs
                   else nonDryWrites a fs newV notes changesFile pending) with
            | Except.error e => Except.error e
            | Except.ok fs1 =>
              let o : PrepOut := ⟨lvl, newV, changesFile⟩
              let fs2 := if a.github_output.isEmpty then fs1
                         else appendFile fs1 a.github_output (ghLines o)
              Except.ok (fs2, o)

/- ----------------------------------------------------------------- -/
/- Helper lemmas                                                      -/
/- ----------------------------------------------------------------- -/

theorem occursIn_of_isPrefixOf {p q : List Char} (h : p.isPrefixOf q = true) :
    ∀ {l : List Char}, occursIn q l = true → occursIn p l = true := by
  intro l
  induction l with
  | nil =>
    simp only [occursIn, List.isEmpty_iff]
    intro hq
    subst hq
    simpa [List.isPrefixOf] using h
  | cons c rest ih =>
    simp only [occursIn, Bool.or_eq_true]
    rintro (hq | hq)
    · left
      have h1 : p <+: q := List.isPrefixOf_iff_prefix.mp h
      have h2 : q <+: c :: rest := List.isPrefixOf_iff_prefix.mp hq
      exact List.isPrefixOf_iff_prefix.mpr (h1.trans h2)
    · right; exact ih hq

theorem occursIn_mem {p l : List Char} (h : occursIn p l = true) :
    ∀ {c : Char}, c ∈ p → c ∈ l := by
  induction l with
  | nil =>
    simp only [occursIn, List.isEmpty_iff] at h
    subst h
    intro c hc
    cases hc
  | cons a rest ih =>
    simp only [occursIn, Bool.or_eq_true] at h
    intro c hc
    rcases h with h | h
    · exact (List.isPrefixOf_iff_prefix.mp h).subset hc
    · exact List.mem_cons_of_mem a (ih h hc)

/- ----------------------------------------------------------------- -/
/- Claims C1, C2, C7, C9 (reapack_publish.py)                         -/
/- ----------------------------------------------------------------- -/

/-- Claim C1, counterexample: in a document whose first provides block is
terminated by a `--@version` directive and which then opens a second
`--@provides` block, `_parse_provides` returns only the first block's entry,
not the entries of both blocks. -/
theorem c1_counterexample :
    parseProvides (str "--@provides\n-- a.lua\n--@version\n--@provides\n-- b.lua") =
      Except.ok [⟨str "a.lua", str "a.lua", false⟩] ∧
    parseProvides (str "--@provides\n-- a.lua\n--@version\n--@provides\n-- b.lua") ≠
      Except.ok [⟨str "a.lua", str "a.lua", false⟩, ⟨str "b.lua", str "b.lua", false⟩] := by
  constructor
  · decide
  · decide

/-- Claim C1, amended: when a line matching another `@`-tagged directive is
reached while the provides flag is set, the scan stops entirely (Python
`break`): no line after it is examined, so no later block contributes
entries. -/
theorem c1_directive_stops_scan (raw : List Char) (rest : List (List Char))
    (h1 : isProvidesStart raw = false) (h2 : isDirective raw = true) :
    provLoop (raw :: rest) true = Except.ok [] := by
  simp [provLoop, h1, h2]

theorem c1_directive_stops_scan_witness :
    provLoop [str "--@version", str "--@provides", str "-- b.lua"] true = Except.ok [] :=
  c1_directive_stops_scan (str "--@version") [str "--@provides", str "-- b.lua"]
    (by decide) (by decide)

/-- Claim C2, counterexample: on a provides-block line whose content contains
`>` with no token on the left side, `_parse_provides` does not run to
completion: it raises `IndexError` (from `left.strip().split()[0]`). -/
theorem c2_counterexample :
    parseProvides (str "--@provides\n-- > foo") = Except.error PErr.indexError := by
  decide

/-- Claim C2, amended: `_parse_provides` skips lines that do not match the
comment-prefix pattern, and skips in-block lines whose content (after
option-flag stripping) has no whitespace-delimited token and no `>`; but a
line whose content contains `>` with no token on one side raises
`IndexError` instead of being skipped, so the scan only runs to completion
when no such line is reached. -/
theorem c2_parse_totality :
    (∀ raw : List Char, matchCommentBody raw = none → lineEntry raw = Except.ok none) ∧
    (∀ raw body : List Char, postOptionBody raw = some body →
      body.contains '>' = false → firstTok body = none → lineEntry raw = Except.ok none) ∧
    (∀ raw body : List Char, postOptionBody raw = some body →
      body.contains '>' = true →
      (firstTok (body.takeWhile (· ≠ '>')) = none ∨
        firstTok ((body.dropWhile (· ≠ '>')).drop 1) = none) →
      lineEntry raw = Except.error PErr.indexError) ∧
    (∀ (lines : List (List Char)) (inP : Bool),
      (∀ raw ∈ lines, (lineEntry raw).isOk = true) →
      ∃ es, provLoop lines inP = Except.ok es) := by
  refine ⟨?_, ?_, ?_, ?_⟩
  · intro raw h
    simp [lineEntry, postOptionBody, h]
  · intro raw body h hgt htok
    have hmem : ¬('>' ∈ body) := by simpa using hgt
    simp [lineEntry, h, hmem, htok]
  · intro raw body h hgt htok
    have hmem : '>' ∈ body := by simpa using hgt
    simp only [lineEntry, h, hmem, if_pos]
    rcases htok with htok | htok
    · rw [htok]
      rcases hr : firstTok ((body.dropWhile (· ≠ '>')).drop 1) with _ | t
      · simp [hgt]
        intro hc
        exact absurd hmem hc
      · simp [hgt]
        intro hc
        exact absurd hmem hc
    · rw [htok]
      rcases hl : firstTok (body.takeWhile (· ≠ '>')) with _ | s
      · simp [hgt]
        intro hc
        exact absurd hmem hc
      · simp [hgt]
        intro hc
        exact absurd hmem hc
  · intro lines
    induction lines with
    | nil => intro inP _; exact ⟨[], rfl⟩
    | cons raw rest ih =>
      intro inP h
      have hraw := h raw (List.mem_cons_self raw rest)
      have hrest : ∀ r ∈ rest, (lineEntry r).isOk = true :=
        fun r hr => h r (List.mem_cons_of_mem raw hr)
      by_cases h1 : isProvidesStart raw = true
      · obtain ⟨es, hes⟩ := ih true hrest
        exact ⟨es, by simp [provLoop, h1, hes]⟩
      · rw [Bool.not_eq_true] at h1
        by_cases h2 : inP = true
        · subst h2
          by_cases h3 : isDirective raw = true
          · exact ⟨[], by simp [provLoop, h1, h3]⟩
          · rw [Bool.not_eq_true] at h3
            rcases hle : lineEntry raw with e | oe
            · rw [hle] at hraw
              simp [Except.isOk, Except.toBool] at hraw
            · rcases oe with _ | e
              · obtain ⟨es, hes⟩ := ih true hrest
                exact ⟨es, by simp [provLoop, h1, h3, hle, hes]⟩
              · obtain ⟨es, hes⟩ := ih true hrest
                exact ⟨e :: es, by simp [provLoop, h1, h3, hle, hes, Except.map]⟩
        · rw [Bool.not_eq_true] at h2
          subst h2
          obtain ⟨es, hes⟩ := ih false hrest
          exact ⟨es, by simp [provLoop, h1, hes]⟩

theorem c2_parse_totality_witness :
    ∃ es, provLoop [str "--@provides", str "-- [x] a.lua > b/", str "junk"] false =
      Except.ok es :=
  c2_parse_totality.2.2.2 [str "--@provides", str "-- [x] a.lua > b/", str "junk"] false
    (by decide)

/-- Claim C7, counterexample: for the line `-- [http://x] foo.lua` the
original content after the comment marker, `[http://x] foo.lua`, contains
`http://`, yet the produced entry has `has_url = false`, because the source
computes `has_url` only after the option-flag bracket group was stripped. -/
theorem c7_counterexample :
    parseProvides (str "--@provides\n-- [http://x] foo.lua") =
      Except.ok [⟨str "foo.lua", str "foo.lua", false⟩] ∧
    occursIn (str "http://") (str "[http://x] foo.lua") = true := by
  constructor
  · decide
  · decide

/-- Claim C7, amended: the produced entry's `has_url` field is true iff the
line's content after the option-flag bracket group is stripped (but still
before any split on `>`) contains `http://` or `https://` anywhere. -/
theorem c7_has_url (raw : List Char) (e : ProvidesEntry)
    (h : lineEntry raw = Except.ok (some e)) :
    ∃ body, postOptionBody raw = some body ∧ e.has_url = hasUrlIn body := by
  rcases hb : postOptionBody raw with _ | body
  · rw [lineEntry, hb] at h
    cases h
  · refine ⟨body, rfl, ?_⟩
    simp only [lineEntry, hb] at h
    by_cases hgt : body.contains '>' = true
    · rw [if_pos hgt] at h
      rcases hl : firstTok (body.takeWhile (· ≠ '>')) with _ | s <;>
        rcases hr : firstTok ((body.dropWhile (· ≠ '>')).drop 1) with _ | t <;>
          rw [hl, hr] at h <;> cases h
      rfl
    · rw [if_neg hgt] at h
      rcases hs : firstTok body with _ | s <;> rw [hs] at h <;> cases h
      rfl

theorem c7_has_url_witness :
    ∃ body, postOptionBody (str "-- https://a b") = some body ∧
      (⟨str "https://a", str "https://a", true⟩ : ProvidesEntry).has_url = hasUrlIn body :=
  c7_has_url (str "-- https://a b") ⟨str "https://a", str "https://a", true⟩ (by decide)

/-- Claim C9: the `cmd_sync` entry loop never emits a copy instruction for an
entry with `has_url` true or with a `.` source or target: such an entry is
skipped with no effect and no error, and every emitted instruction originates
from an entry that is not of that shape. -/
theorem c9_sync_skips :
    (∀ (e : ProvidesEntry) (rest : List ProvidesEntry) (srcs : List (List Char)),
      (e.has_url = true ∨ e.source = str "." ∨ e.target = str ".") →
      syncEntries (e :: rest) srcs = syncEntries rest srcs) ∧
    (∀ (entries : List ProvidesEntry) (srcs : List (List Char))
        (res : List (List Char × List Char)),
      syncEntries entries srcs = Except.ok res →
      ∀ ins ∈ res, ∃ e, e ∈ entries ∧ ins.1 = e.source ∧
        e.has_url = false ∧ e.source ≠ str "." ∧ e.target ≠ str ".") := by
  constructor
  · intro e rest srcs h
    by_cases hdot : (e.source = str "." ∨ e.target = str ".")
    · rcases hdot with hdot | hdot <;> simp [syncEntries, hdot]
    · push_neg at hdot
      have hurl : e.has_url = true := by tauto
      simp [syncEntries, hdot.1, hdot.2, hurl]
  · intro entries
    induction entries with
    | nil =>
      intro srcs res h ins hins
      rw [syncEntries] at h
      cases h
      cases hins
    | cons e rest ih =>
      intro srcs res h ins hins
      rw [syncEntries] at h
      by_cases h1 : (e.source = str "." ∨ e.target = str ".")
      · rcases h1 with h1 | h1
        · rw [if_pos (by simp [h1])] at h
          obtain ⟨e2, he2, rest2⟩ := ih srcs res h ins hins
          exact ⟨e2, List.mem_cons_of_mem e he2, rest2⟩
        · rw [if_pos (by simp [h1])] at h
          obtain ⟨e2, he2, rest2⟩ := ih srcs res h ins hins
          exact ⟨e2, List.mem_cons_of_mem e he2, rest2⟩
      · push_neg at h1
        rw [if_neg (by simp [h1.1, h1.2])] at h
        by_cases h2 : e.has_url = true
        · rw [if_pos h2] at h
          obtain ⟨e2, he2, rest2⟩ := ih srcs res h ins hins
          exact ⟨e2, List.mem_cons_of_mem e he2, rest2⟩
        · rw [if_neg h2] at h
          rw [Bool.not_eq_true] at h2
          by_cases h3 : ((str "XY_Pad/").isPrefixOf e.source) = true
          · simp only [h3, Bool.not_true, Bool.false_eq_true, if_false] at h
            by_cases h4 : (srcs.contains e.source) = true
            · simp only [h4, Bool.not_true, Bool.false_eq_true, if_false] at h
              rcases hrec : syncEntries rest srcs with e3 | res3
              · rw [hrec] at h
                cases h
              · rw [hrec] at h
                simp only [Except.map] at h
                cases h
                rcases List.mem_cons.mp hins with hins | hins
                · subst hins
                  exact ⟨e, List.mem_cons_self e rest, rfl, h2, h1.1, h1.2⟩
                · obtain ⟨e2, he2, rest2⟩ := ih srcs _ hrec ins hins
                  exact ⟨e2, List.mem_cons_of_mem e he2, rest2⟩
            · simp only [h4, Bool.not_false, if_true] at h
              cases h
          · simp only [h3, Bool.not_false, if_true] at h
            obtain ⟨e2, he2, rest2⟩ := ih srcs res h ins hins
            exact ⟨e2, List.mem_cons_of_mem e he2, rest2⟩

theorem c9_sync_skips_witness :
    syncEntries [(⟨str "XY_Pad/u.lua", str "t.lua", true⟩ : ProvidesEntry)] [] =
      syncEntries [] [] :=
  c9_sync_skips.1 ⟨str "XY_Pad/u.lua", str "t.lua", true⟩ [] [] (Or.inl rfl)

/- ----------------------------------------------------------------- -/
/- Claim C3 (release.py: bump-level selection)                        -/
/- ----------------------------------------------------------------- -/

theorem foldl_bump_max (rest : List Bump) :
    ∀ init : Bump,
      (rest.foldl (fun a b => if prio a < prio b then b else a) init ∈ init :: rest) ∧
      (∀ u ∈ init :: rest,
        prio u ≤ prio (rest.foldl (fun a b => if prio a < prio b then b else a) init)) := by
  induction rest with
  | nil =>
    intro init
    refine ⟨List.mem_singleton.mpr rfl, ?_⟩
    intro u hu
    rw [List.mem_singleton] at hu
    subst hu
    exact le_refl _
  | cons b bs ih =>
    intro init
    have hstep : (if prio init < prio b then b else init) ∈ init :: b :: bs := by
      by_cases hc : prio init < prio b
      · rw [if_pos hc]
        exact List.mem_cons_of_mem init (List.mem_cons_self b bs)
      · rw [if_neg hc]
        exact List.mem_cons_self init (b :: bs)
    obtain ⟨hmem, hbound⟩ := ih (if prio init < prio b then b else init)
    constructor
    · simp only [List.foldl_cons]
      rcases List.mem_cons.mp hmem with hm | hm
      · rw [hm]
        exact hstep
      · exact List.mem_cons_of_mem init (List.mem_cons_of_mem b hm)
    · intro u hu
      simp only [List.foldl_cons]
      have hinit_le : prio init ≤ prio (if prio init < prio b then b else init) := by
        by_cases hc : prio init < prio b
        · rw [if_pos hc]
          exact le_of_lt hc
        · rw [if_neg hc]
      have hb_le : prio b ≤ prio (if prio init < prio b then b else init) := by
        by_cases hc : prio init < prio b
        · rw [if_pos hc]
        · rw [if_neg hc]
          exact le_of_not_lt hc
      have hhead := hbound _ (List.mem_cons_self _ bs)
      rcases List.mem_cons.mp hu with hu | hu
      · subst hu
        exact le_trans hinit_le hhead
      · rcases List.mem_cons.mp hu with hu | hu
        · subst hu
          exact le_trans hb_le hhead
        · exact hbound u (List.mem_cons_of_mem _ hu)

theorem prio_inj : ∀ a b : Bump, prio a = prio b → a = b := by
  intro a b h
  cases a <;> cases b <;> simp_all [prio]

/-- Claim C3: for a non-empty discovered set, `_select_bump_level` returns a
discovered level of maximal severity rank (patch < minor < major); the result
is invariant under permutation of the discovered list; the empty set fails
with `NoPendingChanges`; and on the files `a.patch.md`, `b.major.md`,
`c.minor.md` the selected level is `major` in every discovery order. -/
theorem c3_select_bump :
    (∀ l : List Bump, l ≠ [] →
      ∃ v, selectBump l = Except.ok v ∧ v ∈ l ∧ ∀ u ∈ l, prio u ≤ prio v) ∧
    (∀ l₁ l₂ : List Bump, l₁.Perm l₂ → selectBump l₁ = selectBump l₂) ∧
    (selectBump [] = Except.error RErr.noPending) ∧
    (∀ ns ∈ [[str "a.patch.md", str "b.major.md", str "c.minor.md"],
             [str "a.patch.md", str "c.minor.md", str "b.major.md"],
             [str "b.major.md", str "a.patch.md", str "c.minor.md"],
             [str "b.major.md", str "c.minor.md", str "a.patch.md"],
             [str "c.minor.md", str "a.patch.md", str "b.major.md"],
             [str "c.minor.md", str "b.major.md", str "a.patch.md"]],
      selectBump ((discoverPendingNames ns).map (·.1)) = Except.ok Bump.major) := by
  have hchar : ∀ l : List Bump, l ≠ [] →
      ∃ v, selectBump l = Except.ok v ∧ v ∈ l ∧ ∀ u ∈ l, prio u ≤ prio v := by
    intro l hl
    rcases l with _ | ⟨a, rest⟩
    · exact absurd rfl hl
    · obtain ⟨hmem, hbound⟩ := foldl_bump_max rest a
      exact ⟨_, rfl, hmem, hbound⟩
  refine ⟨hchar, ?_, rfl, by decide⟩
  intro l₁ l₂ hperm
  rcases l₁ with _ | ⟨a₁, r₁⟩
  · rw [hperm.nil_eq]
  · rcases l₂ with _ | ⟨a₂, r₂⟩
    · exact absurd hperm.symm.nil_eq (by simp)
    · obtain ⟨v₁, hv₁, hm₁, hb₁⟩ := hchar (a₁ :: r₁) (by simp)
      obtain ⟨v₂, hv₂, hm₂, hb₂⟩ := hchar (a₂ :: r₂) (by simp)
      have h12 : prio v₁ ≤ prio v₂ := hb₂ v₁ (hperm.mem_iff.mp hm₁)
      have h21 : prio v₂ ≤ prio v₁ := hb₁ v₂ (hperm.mem_iff.mpr hm₂)
      have : v₁ = v₂ := prio_inj v₁ v₂ (le_antisymm h12 h21)
      rw [hv₁, hv₂, this]

theorem c3_select_bump_witness :
    ∃ v, selectBump [Bump.patch, Bump.major, Bump.minor] = Except.ok v ∧
      v ∈ [Bump.patch, Bump.major, Bump.minor] ∧
      ∀ u ∈ [Bump.patch, Bump.major, Bump.minor], prio u ≤ prio v :=
  c3_select_bump.1 [Bump.patch, Bump.major, Bump.minor] (by decide)

/- ----------------------------------------------------------------- -/
/- Claim C5 (release.py: stamping example)                            -/
/- ----------------------------------------------------------------- -/

/-- Claim C5: stamping a template with a bare `--@version` line and a
`--@changelog` line, at version 1.4.0 with compiled changelog
`"Fixed X\n\nAdded Y\n"`, yields a document whose version line is exactly
`--@version 1.4.0` and whose changelog tag line is immediately followed by
the lines `--  Fixed X`, `--  ` and `--  Added Y`. -/
theorem c5_stamp_example :
    (stampText (str "--@version\n--@changelog\nlocal x = 1\n") ⟨1, 4, 0⟩
        (str "Fixed X\n\nAdded Y\n")).map (splitOnChar '\n') =
      Except.ok [str "--@version 1.4.0", str "--@changelog", str "--  Fixed X",
                 str "--  ", str "--  Added Y", str "local x = 1", str ""] := by
  decide

/- ----------------------------------------------------------------- -/
/- Split/join helper lemmas (for C4 and C6)                           -/
/- ----------------------------------------------------------------- -/

theorem splitOnChar_ne_nil (sep : Char) (l : List Char) : splitOnChar sep l ≠ [] := by
  induction l with
  | nil => simp [splitOnChar]
  | cons c rest ih =>
    rw [splitOnChar]
    by_cases hc : c = sep
    · simp [hc]
    · simp only [hc, if_false]
      rcases hr : splitOnChar sep rest with _ | ⟨h, t⟩
      · simp
      · simp

theorem joinChar_cons_head (sep c : Char) (h : List Char) (t : List (List Char)) :
    joinChar sep ((c :: h) :: t) = c :: joinChar sep (h :: t) := by
  rcases t with _ | ⟨x, xs⟩
  · rfl
  · rfl

theorem joinChar_splitOnChar (sep : Char) (l : List Char) :
    joinChar sep (splitOnChar sep l) = l := by
  induction l with
  | nil => rfl
  | cons c rest ih =>
    rw [splitOnChar]
    by_cases hc : c = sep
    · subst hc
      simp only [if_pos rfl]
      rcases hr : splitOnChar c rest with _ | ⟨h, t⟩
      · exact absurd hr (splitOnChar_ne_nil c rest)
      · rw [← hr]
        show joinChar c ([] :: splitOnChar c rest) = c :: rest
        rw [hr]
        show [] ++ c :: joinChar c (h :: t) = c :: rest
        rw [← hr, ih]
        rfl
    · simp only [hc, if_false]
      rcases hr : splitOnChar sep rest with _ | ⟨h, t⟩
      · exact absurd hr (splitOnChar_ne_nil sep rest)
      · show joinChar sep ((c :: h) :: t) = c :: rest
        rw [joinChar_cons_head, ← hr, ih]

theorem splitOnChar_mem_no_sep (sep : Char) (l : List Char) :
    ∀ p ∈ splitOnChar sep l, sep ∉ p := by
  induction l with
  | nil =>
    intro p hp
    rw [splitOnChar, List.mem_singleton] at hp
    subst hp
    simp
  | cons c rest ih =>
    intro p hp
    rw [splitOnChar] at hp
    by_cases hc : c = sep
    · simp only [hc, if_pos rfl] at hp
      rcases List.mem_cons.mp hp with hp | hp
      · subst hp
        simp
      · exact ih p hp
    · simp only [hc, if_false] at hp
      rcases hr : splitOnChar sep rest with _ | ⟨h, t⟩
      · exact absurd hr (splitOnChar_ne_nil sep rest)
      · rw [hr] at hp
        rcases List.mem_cons.mp hp with hp | hp
        · subst hp
          intro hmem
          rcases List.mem_cons.mp hmem with hmem | hmem
          · exact hc hmem.symm
          · exact ih h (hr ▸ List.mem_cons_self h t) hmem
        · exact ih p (hr ▸ List.mem_cons_of_mem h hp)

theorem splitOnChar_no_sep (sep : Char) (l : List Char) (h : sep ∉ l) :
    splitOnChar sep l = [l] := by
  induction l with
  | nil => rfl
  | cons c rest ih =>
    have hc : c ≠ sep := fun he => h (he ▸ List.mem_cons_self c rest)
    have hrest : sep ∉ rest := fun hm => h (List.mem_cons_of_mem c hm)
    rw [splitOnChar]
    simp only [fun he => hc he, if_false]
    rw [ih hrest]

theorem splitOnChar_append_sep (sep : Char) (a r : List Char) (h : sep ∉ a) :
    splitOnChar sep (a ++ sep :: r) = a :: splitOnChar sep r := by
  induction a with
  | nil =>
    rw [List.nil_append, splitOnChar]
    simp
  | cons c as ih =>
    have hc : c ≠ sep := fun he => h (he ▸ List.mem_cons_self c as)
    have has : sep ∉ as := fun hm => h (List.mem_cons_of_mem c hm)
    rw [List.cons_append, splitOnChar]
    simp only [hc, if_false]
    rw [ih has]

/- ----------------------------------------------------------------- -/
/- Claim C6 (release.py: SemVer.parse grammar)                        -/
/- ----------------------------------------------------------------- -/

/-- The spec's description of one version segment: `0`, or a digit string
not starting with `0`. -/
def Seg (p : List Char) : Prop :=
  p ≠ [] ∧ (∀ ch ∈ p, ch.isDigit = true) ∧ (p = ['0'] ∨ p.head? ≠ some '0')

/-- The spec's three-segment grammar `^(0|[1-9]\d*)\.(0|[1-9]\d*)\.(0|[1-9]\d*)$`,
stated structurally following the spec's words. -/
def SemGrammar (s : List Char) : Prop :=
  ∃ a b c, s = a ++ '.' :: (b ++ '.' :: c) ∧ Seg a ∧ Seg b ∧ Seg c

theorem segOk_iff (p : List Char) : segOk p = true ↔ Seg p := by
  rw [segOk, Seg]
  simp only [Bool.and_eq_true, Bool.or_eq_true, Bool.not_eq_true', List.isEmpty_eq_false,
    List.all_eq_true, beq_iff_eq, beq_eq_false_iff_ne, ne_eq]
  tauto

theorem seg_no_dot {p : List Char} (h : Seg p) : '.' ∉ p := by
  intro hmem
  have := h.2.1 '.' hmem
  simp at this

theorem semMatch_iff (s : List Char) : (semMatch s).isSome = true ↔ SemGrammar s := by
  constructor
  · intro h
    rw [semMatch] at h
    rcases hs : splitOnChar '.' s with _ | ⟨a, t1⟩
    · exact absurd hs (splitOnChar_ne_nil '.' s)
    · rcases t1 with _ | ⟨b, t2⟩
      · rw [hs] at h
        simp at h
      · rcases t2 with _ | ⟨c, t3⟩
        · rw [hs] at h
          simp at h
        · rcases t3 with _ | ⟨d, t4⟩
          · rw [hs] at h
            by_cases hok : (segOk a && segOk b && segOk c) = true
            · simp only [Bool.and_eq_true] at hok
              have hjoin := joinChar_splitOnChar '.' s
              rw [hs] at hjoin
              refine ⟨a, b, c, ?_, (segOk_iff a).mp hok.1.1,
                (segOk_iff b).mp hok.1.2, (segOk_iff c).mp hok.2⟩
              rw [← hjoin]
              rfl
            · simp only [hok, if_false] at h
              simp at h
          · rw [hs] at h
            simp at h
  · rintro ⟨a, b, c, hseq, ha, hb, hc⟩
    subst hseq
    rw [semMatch, splitOnChar_append_sep '.' a _ (seg_no_dot ha),
      splitOnChar_append_sep '.' b _ (seg_no_dot hb),
      splitOnChar_no_sep '.' c (seg_no_dot hc)]
    have hok : (segOk a && segOk b && segOk c) = true := by
      simp [(segOk_iff a).mpr ha, (segOk_iff b).mpr hb, (segOk_iff c).mpr hc]
    simp [hok]

/-- Claim C6, counterexample: the claim allows stripping at most one leading
`v`, so it predicts `"vv1.2.3"` is rejected; the code strips every leading
`v` (`lstrip("v")`) and parses it to 1.2.3. `claimOptionalOneV` is the
claim's acceptance condition, written from the claim's words for this
comparison. -/
def claimOptionalOneV (s : List Char) : Prop :=
  SemGrammar (stripWs s) ∨ ∃ r, stripWs s = 'v' :: r ∧ SemGrammar r

theorem c6_counterexample :
    SemVer.parse (str "vv1.2.3") = Except.ok ⟨1, 2, 3⟩ ∧
      ¬claimOptionalOneV (str "vv1.2.3") := by
  constructor
  · decide
  · rintro (h | ⟨r, hr, h⟩)
    · rw [← semMatch_iff] at h
      revert h
      decide
    · have hstrip : stripWs (str "vv1.2.3") = 'v' :: str "v1.2.3" := by decide
      rw [hstrip] at hr
      have : r = str "v1.2.3" := (List.cons_eq_cons.mp hr).2.symm
      subst this
      rw [← semMatch_iff] at h
      revert h
      decide

/-- Claim C6, amended: `SemVer.parse` succeeds iff, after stripping
surrounding whitespace and every leading `v` character, the remainder
matches the strict three-segment grammar (each segment `0` or a digit string
not starting with `0`); in particular `"1.2"`, `"1.2.3.4"`, `"1.02.3"`,
`"abc"` and `""` are rejected with `InvalidVersionFormat`. -/
theorem c6_parse_grammar :
    (∀ s : List Char, (SemVer.parse s).isOk = true ↔ SemGrammar (dropV (stripWs s))) ∧
    SemVer.parse (str "1.2") = Except.error RErr.invalidVersion ∧
    SemVer.parse (str "1.2.3.4") = Except.error RErr.invalidVersion ∧
    SemVer.parse (str "1.02.3") = Except.error RErr.invalidVersion ∧
    SemVer.parse (str "abc") = Except.error RErr.invalidVersion ∧
    SemVer.parse (str "") = Except.error RErr.invalidVersion := by
  refine ⟨?_, by decide, by decide, by decide, by decide, by decide⟩
  intro s
  rw [← semMatch_iff, SemVer.parse]
  rcases hm : semMatch (dropV (stripWs s)) with _ | v
  · simp [Except.isOk, Except.toBool]
  · simp [Except.isOk, Except.toBool]

/- ----------------------------------------------------------------- -/
/- Claim C10 (release.py: lstrip("v"))                                -/
/- ----------------------------------------------------------------- -/

theorem dropWhile_append_last_ne_nil (p : Char → Bool) (x : List Char) (c : Char)
    (hc : p c = false) : (x ++ [c]).dropWhile p ≠ [] := by
  induction x with
  | nil => simp [List.dropWhile_cons, hc]
  | cons a as ih =>
    rw [List.cons_append, List.dropWhile_cons]
    by_cases ha : p a = true
    · simpa [ha] using ih
    · rw [Bool.not_eq_true] at ha
      simp [ha]

theorem dropWhile_v_replicate (n : Nat) (t : List Char) :
    (List.replicate n 'v' ++ t).dropWhile (· = 'v') = t.dropWhile (· = 'v') := by
  induction n with
  | zero => simp
  | succ k ih => simp [List.replicate_succ, ih]

/-- Claim C10, counterexample: `" 1.2.3"` parses (surrounding whitespace is
stripped), but prefixing one `v` yields `"v 1.2.3"`, which fails: `strip()`
runs before `lstrip("v")`, so the inner whitespace is no longer stripped. -/
theorem c10_counterexample :
    SemVer.parse (str " 1.2.3") = Except.ok ⟨1, 2, 3⟩ ∧
    SemVer.parse (List.replicate 1 'v' ++ str " 1.2.3") =
      Except.error RErr.invalidVersion := by
  constructor
  · decide
  · decide

/-- Claim C10, amended: for every string `s` that does not start with a
whitespace character and parses to `x.y.z`, prefixing `s` with any number of
additional `v` characters still parses to the same `x.y.z` (the code strips
every leading `v`, not just one). -/
theorem c10_lstrip_all_v (s : List Char) (v : SemVer) (n : Nat)
    (hs : s.head?.all (fun c => !isWs c) = true)
    (hp : SemVer.parse s = Except.ok v) :
    SemVer.parse (List.replicate n 'v' ++ s) = Except.ok v := by
  rcases s with _ | ⟨c, s0⟩
  · have hnil : SemVer.parse ([] : List Char) = Except.error RErr.invalidVersion := by decide
    rw [hnil] at hp
    cases hp
  · have hc : isWs c = false := by simpa using hs
    have h1 : lstripWs (c :: s0) = c :: s0 := by
      rw [lstripWs, List.dropWhile_cons, if_neg (by rw [hc]; exact Bool.false_ne_true)]
    have h2 : (c :: s0).reverse.dropWhile isWs ≠ [] := by
      rw [List.reverse_cons]
      exact dropWhile_append_last_ne_nil isWs s0.reverse c hc
    have h5 : stripWs (c :: s0) = rstripWs (c :: s0) := by rw [stripWs, h1]
    have h6 : lstripWs (List.replicate n 'v' ++ (c :: s0)) =
        List.replicate n 'v' ++ (c :: s0) := by
      cases n with
      | zero => simpa using h1
      | succ k =>
        rw [List.replicate_succ, List.cons_append, lstripWs, List.dropWhile_cons,
          if_neg (by simp [isWs])]
    have h7 : rstripWs (List.replicate n 'v' ++ (c :: s0)) =
        List.replicate n 'v' ++ rstripWs (c :: s0) := by
      rw [rstripWs, List.reverse_append, List.dropWhile_append,
        if_neg (by simpa [List.isEmpty_iff] using h2), List.reverse_append,
        List.reverse_reverse, rstripWs]
    have h8 : stripWs (List.replicate n 'v' ++ (c :: s0)) =
        List.replicate n 'v' ++ rstripWs (c :: s0) := by
      rw [stripWs, h6, h7]
    rw [SemVer.parse, h8, dropV, dropWhile_v_replicate]
    rw [SemVer.parse, h5, dropV] at hp
    exact hp

theorem c10_lstrip_all_v_witness :
    SemVer.parse (List.replicate 2 'v' ++ str "v1.2.3") = Except.ok ⟨1, 2, 3⟩ :=
  c10_lstrip_all_v (str "v1.2.3") ⟨1, 2, 3⟩ 2 (by decide) (by decide)

/- ----------------------------------------------------------------- -/
/- Claim C4 helper lemmas                                             -/
/- ----------------------------------------------------------------- -/

theorem bool_eq_of_iff {a b : Bool} (h : a = true ↔ b = true) : a = b := by
  cases a <;> cases b <;> simp_all

theorem occursIn_nil_pat (z : List Char) : occursIn [] z = true := by
  cases z <;> simp [occursIn, List.isPrefixOf]

theorem occursIn_append_right (p y : List Char) (h : occursIn p y = true) :
    ∀ x : List Char, occursIn p (x ++ y) = true := by
  intro x
  induction x with
  | nil => simpa
  | cons c xs ih =>
    rw [List.cons_append, occursIn]
    simp [ih]

theorem occursIn_append_left (p x : List Char) (h : occursIn p x = true) (z : List Char) :
    occursIn p (x ++ z) = true := by
  induction x with
  | nil =>
    rw [occursIn, List.isEmpty_iff] at h
    subst h
    exact occursIn_nil_pat z
  | cons c xs ih =>
    rw [occursIn, Bool.or_eq_true] at h
    rcases h with h | h
    · rw [List.cons_append, occursIn]
      have hpre : p <+: c :: xs := List.isPrefixOf_iff_prefix.mp h
      have : p.isPrefixOf (c :: (xs ++ z)) = true := by
        rw [show c :: (xs ++ z) = (c :: xs) ++ z from rfl]
        exact List.isPrefixOf_iff_prefix.mpr (hpre.trans (List.prefix_append (c :: xs) z))
      simp [this]
    · rw [List.cons_append, occursIn]
      simp [ih h]

theorem prefix_through_sep (sep : Char) :
    ∀ p x y : List Char, (∀ c ∈ p, c ≠ sep) → p.isPrefixOf (x ++ sep :: y) = true →
      p.isPrefixOf x = true := by
  intro p
  induction p with
  | nil => intro x y _ _; simp [List.isPrefixOf]
  | cons a ps ih =>
    intro x y hns h
    rcases x with _ | ⟨b, xs⟩
    · rw [List.nil_append, List.isPrefixOf] at h
      simp only [Bool.and_eq_true, beq_iff_eq] at h
      exact absurd h.1 (hns a (List.mem_cons_self a ps))
    · rw [List.cons_append, List.isPrefixOf] at h
      simp only [Bool.and_eq_true, beq_iff_eq] at h
      rw [List.isPrefixOf]
      simp only [Bool.and_eq_true, beq_iff_eq]
      exact ⟨h.1, ih xs y (fun c hc => hns c (List.mem_cons_of_mem a hc)) h.2⟩

theorem occursIn_append_sep (sep : Char) (p : List Char) (hp : p ≠ [])
    (hns : ∀ c ∈ p, c ≠ sep) (x y : List Char) :
    occursIn p (x ++ sep :: y) = true ↔ occursIn p x = true ∨ occursIn p y = true := by
  constructor
  · induction x with
    | nil =>
      intro h
      rw [List.nil_append, occursIn, Bool.or_eq_true] at h
      rcases h with h | h
      · rcases p with _ | ⟨a, ps⟩
        · exact absurd rfl hp
        · rw [List.isPrefixOf] at h
          simp only [Bool.and_eq_true, beq_iff_eq] at h
          exact absurd h.1 (hns a (List.mem_cons_self a ps))
      · exact Or.inr h
    | cons c xs ih =>
      intro h
      rw [List.cons_append, occursIn, Bool.or_eq_true] at h
      rcases h with h | h
      · have hx : p.isPrefixOf (c :: xs) = true :=
          prefix_through_sep sep p (c :: xs) y hns h
        exact Or.inl (by rw [occursIn]; simp [hx])
      · rcases ih h with h2 | h2
        · exact Or.inl (by rw [occursIn]; simp [h2])
        · exact Or.inr h2
  · intro h
    rcases h with h | h
    · exact occursIn_append_left p x h (sep :: y)
    · have := occursIn_append_right p y h (x ++ [sep])
      simpa [List.append_assoc] using this

theorem occursIn_joinChar (sep : Char) (p : List Char) (hp : p ≠ [])
    (hns : ∀ c ∈ p, c ≠ sep) :
    ∀ ls : List (List Char),
      (occursIn p (joinChar sep ls) = true ↔ ∃ l ∈ ls, occursIn p l = true) := by
  intro ls
  induction ls with
  | nil =>
    rw [joinChar]
    simp [occursIn, List.isEmpty_iff, hp]
  | cons l rest ih =>
    rcases rest with _ | ⟨l2, ls2⟩
    · rw [joinChar]
      simp
    · rw [show joinChar sep (l :: l2 :: ls2) = l ++ sep :: joinChar sep (l2 :: ls2) from rfl]
      rw [occursIn_append_sep sep p hp hns, ih]
      constructor
      · rintro (h | ⟨x, hx, hocc⟩)
        · exact ⟨l, List.mem_cons_self l _, h⟩
        · exact ⟨x, List.mem_cons_of_mem l hx, hocc⟩
      · rintro ⟨x, hx, hocc⟩
        rcases List.mem_cons.mp hx with hx | hx
        · exact Or.inl (hx ▸ hocc)
        · exact Or.inr ⟨x, hx, hocc⟩

theorem digitCh_isDigit (n : Nat) : (digitCh n).isDigit = true := by
  unfold digitCh
  split <;> decide

theorem natCharsAux_digits :
    ∀ (fuel n : Nat), ∀ c ∈ natCharsAux fuel n, c.isDigit = true := by
  intro fuel
  induction fuel with
  | zero =>
    intro n c hc
    cases hc
  | succ f ih =>
    intro n c hc
    rw [natCharsAux] at hc
    by_cases hn : n < 10
    · rw [if_pos hn, List.mem_singleton] at hc
      subst hc
      exact digitCh_isDigit n
    · rw [if_neg hn] at hc
      rcases List.mem_append.mp hc with hc | hc
      · exact ih _ c hc
      · rw [List.mem_singleton] at hc
        subst hc
        exact digitCh_isDigit _

theorem verChars_mem {v : SemVer} {c : Char} (hc : c ∈ verChars v) :
    c.isDigit = true ∨ c = '.' := by
  rw [verChars, natChars, natChars, natChars] at hc
  rcases List.mem_append.mp hc with h | h
  · exact Or.inl (natCharsAux_digits _ _ c h)
  · rcases List.mem_cons.mp h with h | h
    · exact Or.inr h
    · rcases List.mem_append.mp h with h | h
      · exact Or.inl (natCharsAux_digits _ _ c h)
      · rcases List.mem_cons.mp h with h | h
        · exact Or.inr h
        · exact Or.inl (natCharsAux_digits _ _ c h)

theorem hchar_not_in_verline (v : SemVer) : 'h' ∉ str "--@version " ++ verChars v := by
  intro h
  rcases List.mem_append.mp h with h | h
  · revert h
    decide
  · rcases verChars_mem h with h2 | h2
    · exact absurd h2 (by decide)
    · exact absurd h2 (by decide)

theorem bare_version_no_h {l : List Char} (h : isBareVersionLine l = true) : 'h' ∉ l := by
  rw [isBareVersionLine, Bool.and_eq_true] at h
  obtain ⟨t, ht⟩ := List.isPrefixOf_iff_prefix.mp h.1
  intro hmem
  rw [← ht] at hmem
  rcases List.mem_append.mp hmem with hm | hm
  · revert hm
    decide
  · have hall := h.2
    rw [← ht] at hall
    have hlen : (str "--@version").length = 10 := by decide
    rw [← hlen, List.drop_left] at hall
    have := (List.all_eq_true.mp hall) 'h' hm
    exact absurd this (by decide)

theorem stampLine_occ (v : SemVer) (l : List Char) :
    occursIn (str "--@changelog") (stampLine v l) = occursIn (str "--@changelog") l := by
  rw [stampLine]
  by_cases hb : isBareVersionLine l = true
  · rw [if_pos hb]
    have h1 : occursIn (str "--@changelog") (str "--@version " ++ verChars v) = false := by
      rw [Bool.eq_false_iff]
      intro hocc
      exact hchar_not_in_verline v (occursIn_mem hocc (by decide))
    have h2 : occursIn (str "--@changelog") l = false := by
      rw [Bool.eq_false_iff]
      intro hocc
      exact bare_version_no_h hb (occursIn_mem hocc (by decide))
    rw [h1, h2]
  · rw [if_neg hb]

theorem subVersion_occ (t : List Char) (v : SemVer) :
    occursIn (str "--@changelog") (subVersion t v) = occursIn (str "--@changelog") t := by
  have hp : (str "--@changelog") ≠ [] := by decide
  have hns : ∀ c ∈ str "--@changelog", c ≠ '\n' := by decide
  have h2 := occursIn_joinChar '\n' _ hp hns (splitOnChar '\n' t)
  rw [joinChar_splitOnChar] at h2
  rw [subVersion]
  refine bool_eq_of_iff ?_
  rw [occursIn_joinChar '\n' _ hp hns ((splitOnChar '\n' t).map (stampLine v)), h2]
  constructor
  · rintro ⟨l, hl, hocc⟩
    rcases List.mem_map.mp hl with ⟨l0, hl0, rfl⟩
    exact ⟨l0, hl0, by rw [← stampLine_occ v l0]; exact hocc⟩
  · rintro ⟨l, hl, hocc⟩
    exact ⟨stampLine v l, List.mem_map_of_mem _ hl, by rw [stampLine_occ]; exact hocc⟩

theorem prefix_drop {p l : List Char} (h : p.isPrefixOf l = true) :
    l = p ++ l.drop p.length := by
  obtain ⟨t, ht⟩ := List.isPrefixOf_iff_prefix.mp h
  rw [← ht, List.drop_left]

theorem replaceFirst_spec (pat rep : List Char) (hpat : pat ≠ []) :
    ∀ s : List Char, occursIn pat s = true →
      ∃ a b, s = a ++ pat ++ b ∧ replaceFirst pat rep s = a ++ rep ++ b ∧
        ∀ i < a.length, pat.isPrefixOf (s.drop i) = false := by
  intro s
  induction s with
  | nil =>
    intro h
    rw [occursIn, List.isEmpty_iff] at h
    exact absurd h hpat
  | cons c rest ih =>
    intro h
    by_cases hp : pat.isPrefixOf (c :: rest) = true
    · refine ⟨[], (c :: rest).drop pat.length, ?_, ?_, ?_⟩
      · simpa using prefix_drop hp
      · rw [replaceFirst, if_pos hp]
        simp
      · intro i hi
        simp at hi
    · rw [occursIn, Bool.or_eq_true] at h
      rcases h with h | h
      · exact absurd h hp
      · obtain ⟨a, b, heq, hrep, hmin⟩ := ih h
        refine ⟨c :: a, b, ?_, ?_, ?_⟩
        · simp [heq]
        · rw [replaceFirst, if_neg hp, hrep]
          simp
        · intro i hi
          cases i with
          | zero =>
            simpa using Bool.eq_false_iff.mpr hp
          | succ j =>
            have hj : j < a.length := by simpa using hi
            simpa using hmin j hj

/- ----------------------------------------------------------------- -/
/- Claim C4 (release.py: changelog tag detection)                     -/
/- ----------------------------------------------------------------- -/

/-- Claim C4, counterexample: in the template `"a --@changelog b\n"` no line
is exactly `--@changelog`, yet stamping does not fail (the source checks
substring containment, not an exact line match); it returns the text
unchanged, with no insertion. -/
theorem c4_counterexample :
    ((splitOnChar '\n' (str "a --@changelog b\n")).all
      (fun l => !(l == str "--@changelog"))) = true ∧
    stampText (str "a --@changelog b\n") ⟨1, 0, 0⟩ (str "X\n") =
      Except.ok (str "a --@changelog b\n") := by
  constructor
  · decide
  · decide

/-- Claim C4, amended: changelog stamping fails with `MissingChangelogTag`
iff the template does not contain `--@changelog` as a substring (the bare
`--@version` line substitution can neither create nor remove that tag);
when the version-substituted template contains the substring
`--@changelog\n`, the reformatted changelog block is inserted immediately
after its first occurrence. -/
theorem c4_stamp :
    (∀ (t : List Char) (v : SemVer) (notes : List Char),
      (stampText t v notes = Except.error RErr.missingChangelog ↔
        occursIn (str "--@changelog") t = false)) ∧
    (∀ (t : List Char) (v : SemVer) (notes : List Char),
      occursIn (str "--@changelog\n") (subVersion t v) = true →
      ∃ pre post, subVersion t v = pre ++ str "--@changelog\n" ++ post ∧
        stampText t v notes =
          Except.ok (pre ++ str "--@changelog\n" ++ (clInsertion notes ++ post)) ∧
        ∀ i < pre.length,
          (str "--@changelog\n").isPrefixOf ((subVersion t v).drop i) = false) := by
  constructor
  · intro t v notes
    rw [stampText, ← subVersion_occ t v]
    cases hocc : occursIn (str "--@changelog") (subVersion t v)
    · simp
    · simp
  · intro t v notes hocc
    have hocc2 : occursIn (str "--@changelog") (subVersion t v) = true :=
      occursIn_of_isPrefixOf (by decide) hocc
    obtain ⟨pre, post, heq, hrep, hmin⟩ :=
      replaceFirst_spec (str "--@changelog\n")
        (str "--@changelog\n" ++ clInsertion notes) (by decide) (subVersion t v) hocc
    refine ⟨pre, post, heq, ?_, hmin⟩
    rw [stampText]
    rw [if_neg (by simp [hocc2])]
    rw [hrep]
    simp [List.append_assoc]

theorem c4_stamp_witness :
    ((stampText (str "--@version\nx\n") ⟨2, 0, 0⟩ (str "N\n") =
        Except.error RErr.missingChangelog ↔
      occursIn (str "--@changelog") (str "--@version\nx\n") = false)) ∧
    (∃ pre post,
      subVersion (str "--@version\n--@changelog\nz\n") ⟨2, 0, 0⟩ =
        pre ++ str "--@changelog\n" ++ post ∧
      stampText (str "--@version\n--@changelog\nz\n") ⟨2, 0, 0⟩ (str "N\n") =
        Except.ok (pre ++ str "--@changelog\n" ++ (clInsertion (str "N\n") ++ post)) ∧
      ∀ i < pre.length,
        (str "--@changelog\n").isPrefixOf
          ((subVersion (str "--@version\n--@changelog\nz\n") ⟨2, 0, 0⟩).drop i) = false) :=
  ⟨c4_stamp.1 (str "--@version\nx\n") ⟨2, 0, 0⟩ (str "N\n"),
   c4_stamp.2 (str "--@version\n--@changelog\nz\n") ⟨2, 0, 0⟩ (str "N\n") (by decide)⟩

/- ----------------------------------------------------------------- -/
/- Claim C8 (release.py: dry-run prepare)                             -/
/- ----------------------------------------------------------------- -/

/-- A small repository state: a current-version file and one pending note. -/
def fsFix : FS :=
  [(str "XY_Pad/releases/current.txt", str "1.2.3\n"),
   (str "XY_Pad/releases/pending/a.patch.md", str "Fix A\n")]

/-- `prepare --dry-run` with the default paths and no GitHub output file. -/
def argsDry : PrepArgs :=
  ⟨true, [], str "XY_Pad/releases/current.txt", str "XY_Pad/releases/pending",
   str "XY_Pad/releases", str "XY_Pad/releases/reapack-base", str "XY_Pad-ReaPack.lua"⟩

/-- `prepare --dry-run` in a CI environment where `GITHUB_OUTPUT=gh.txt`. -/
def argsGh : PrepArgs :=
  ⟨true, str "gh.txt", str "XY_Pad/releases/current.txt", str "XY_Pad/releases/pending",
   str "XY_Pad/releases", str "XY_Pad/releases/reapack-base", str "XY_Pad-ReaPack.lua"⟩

/-- Claim C8, counterexample: with a GitHub-output destination set (as in CI,
where `--github-output` defaults to `$GITHUB_OUTPUT`), a dry-run `prepare`
does write a file: it appends the reported triple to the output file, so the
filesystem is not left unchanged. -/
theorem c8_counterexample :
    cmd_prepare argsGh fsFix =
      Except.ok (fsFix ++ [(str "gh.txt",
          str "bump_level=patch\nversion=1.2.4\nchanges_file=XY_Pad/releases/changes-1.2.4.md\n")],
        ⟨Bump.patch, ⟨1, 2, 4⟩, str "XY_Pad/releases/changes-1.2.4.md"⟩) ∧
    fsFix ++ [(str "gh.txt",
        str "bump_level=patch\nversion=1.2.4\nchanges_file=XY_Pad/releases/changes-1.2.4.md\n")] ≠
      fsFix := by
  constructor
  · decide
  · decide

/-- Claim C8, amended: with no GitHub-output destination set, a dry-run
`prepare` leaves the filesystem unchanged, and running it again reports the
identical `(bump_level, version, changes_file)` triple; when a GitHub-output
path is set, each dry-run invocation still appends the reported triple to
that file (the only filesystem change). -/
theorem c8_dry_run_idempotent (a : PrepArgs) (fs fs2 : FS) (o : PrepOut)
    (hdry : a.dry_run = true) (hgh : a.github_output = [])
    (h : cmd_prepare a fs = Except.ok (fs2, o)) :
    fs2 = fs ∧ cmd_prepare a fs2 = Except.ok (fs2, o) := by
  have hfs : fs2 = fs := by
    simp only [cmd_prepare, hdry, hgh, List.isEmpty_nil, if_true] at h
    rcases h1 : readText fs a.current_version_file with e1 | raw <;> simp only [h1] at h
    · cases h
    rcases h2 : SemVer.parse (stripWs raw) with e2 | cur <;> simp only [h2] at h
    · cases h
    rcases h3 : selectBump ((discoverPendingFS fs a.pending_dir).map (fun x => x.1))
      with e3 | lvl <;> simp only [h3] at h
    · cases h
    rcases h4 : compileNotes fs a.pending_dir (discoverPendingFS fs a.pending_dir)
      with e4 | notes <;> simp only [h4] at h
    · cases h
    by_cases h5 : (stripWs notes).isEmpty = true
    · simp only [if_pos h5] at h
      cases h
    · simp only [if_neg h5] at h
      cases h
      rfl
  subst hfs
  exact ⟨rfl, h⟩

theorem c8_dry_run_idempotent_witness :
    fsFix = fsFix ∧
    cmd_prepare argsDry fsFix =
      Except.ok (fsFix, ⟨Bump.patch, ⟨1, 2, 4⟩, str "XY_Pad/releases/changes-1.2.4.md"⟩) :=
  c8_dry_run_idempotent argsDry fsFix fsFix
    ⟨Bump.patch, ⟨1, 2, 4⟩, str "XY_Pad/releases/changes-1.2.4.md"⟩
    rfl rfl (by decide)
